import Mathlib

/-!
Formal model of the filesystem-tree component of the `xcodeproj` crate
(`src/pbxproj/object/fs/mod.rs`): the `PBXFSReference` record, child
resolution through the shared object collection, name/path lookup,
parent-linkage maintenance, and structural equality.

Modelling conventions:
* The shared object collection (`Rc<RefCell<PBXObjectCollection>>` in the
  source) is an explicit association list from opaque string identifiers to
  records; in-place `RefCell` mutation becomes functional update of the slot.
* A `Weak<RefCell<PBXFSReference>>` handle is an `Option String` slot
  identifier (upgrade = lookup; `none` = the dangling default handle).
* Each node's weak handle to the collection is modelled by passing the
  upgrade result (`Option PBXObjectCollection`) to the operations that call
  `self.objects.upgrade()`; `none` means the collection was torn down.
* The recursive `assign_parent_to_children` is given explicit fuel; the
  termination theorem shows the result is fuel-independent once the fuel
  covers the (assumed acyclic, hence finite) tree height.
-/

/-- Modelled from the spec: the `kind` discriminant of `PBXFSReference`
(`kind.rs` is outside the visible source) — variants `File`, `Group`,
`VariantGroup`, `VersionGroup`. -/
inductive PBXFSReferenceKind where
  | file
  | group
  | variantGroup
  | versionGroup
deriving DecidableEq

/-- Modelled from the spec: the source-tree enumeration (`source_tree.rs` is
outside the visible source) — "enum (project/group/absolute/SDK-root/…)";
the open end is modelled by a `custom` constructor. -/
inductive PBXSourceTree where
  | project
  | group
  | absolute
  | sdkRoot
  | custom (value : String)
deriving DecidableEq

/-- The `PBXFSReference` record: abstraction over `PBXFileReference`,
`PBXGroup`, `PBXVariantGroup`, and `XCVersionGroup`.  All content fields are
as in the Rust struct; `parent : Weak<RefCell<Self>>` is modelled as the
optional slot identifier the weak handle points at, and the
`objects : WeakPBXObjectCollection` field is modelled by passing the handle
upgrade result to the operations that use it. -/
structure PBXFSReference where
  source_tree : Option PBXSourceTree := none
  path : Option String := none
  name : Option String := none
  include_in_index : Option Bool := none
  uses_tabs : Option Bool := none
  indent_width : Option Int := none
  tab_width : Option Int := none
  wraps_lines : Option Bool := none
  kind : PBXFSReferenceKind := PBXFSReferenceKind.file
  children_references : Option (List String) := none
  file_encoding : Option Int := none
  explicit_file_type : Option String := none
  last_known_file_type : Option String := none
  line_ending : Option Int := none
  language_specification_identifier : Option String := none
  xc_language_specification_identifier : Option String := none
  plist_structure_definition_identifier : Option String := none
  current_version_reference : Option String := none
  version_group_type : Option String := none
  parent : Option String := none
deriving DecidableEq

/-- Modelled from the spec: a polymorphic record of the shared object
collection — either interpretable as an FSReference or some other record
kind (target, build phase, …). -/
inductive PBXObject where
  | fs (reference : PBXFSReference)
  | other
deriving DecidableEq

/-- Modelled from the spec: the narrowing operation `as_pbxfs_reference`. -/
def PBXObject.as_pbxfs_reference : PBXObject → Option PBXFSReference
  | PBXObject.fs r => some r
  | PBXObject.other => none

/-- Lookup of an identifier in an identifier/record association list
(first matching key wins). -/
def lookupEntry : List (String × PBXObject) → String → Option PBXObject
  | [], _ => none
  | (k, v) :: rest, id => if k = id then some v else lookupEntry rest id

/-- Replacement of the record stored at an identifier (first matching key);
a missing key leaves the list unchanged.  This models in-place `RefCell`
mutation of a shared slot. -/
def updateEntry : List (String × PBXObject) → String → PBXObject → List (String × PBXObject)
  | [], _, _ => []
  | (k, v) :: rest, id, w => if k = id then (k, w) :: rest else (k, v) :: updateEntry rest id w

/-- Modelled from the spec: the Shared Object Collection — a flat table
mapping opaque string identifiers to polymorphic records. -/
structure PBXObjectCollection where
  entries : List (String × PBXObject)
deriving DecidableEq

/-- The collection's lookup operation `get(identifier)`. -/
def PBXObjectCollection.get (self : PBXObjectCollection) (id : String) : Option PBXObject :=
  lookupEntry self.entries id

/-- Writing back a mutated record into its slot. -/
def PBXObjectCollection.set (self : PBXObjectCollection) (id : String) (v : PBXObject) : PBXObjectCollection :=
  PBXObjectCollection.mk (updateEntry self.entries id v)

/-- Modelled from the spec: `is_file()` — true iff the variant is File. -/
def PBXFSReference.is_file (self : PBXFSReference) : Bool :=
  match self.kind with
  | PBXFSReferenceKind.file => true
  | _ => false

/-- Modelled from the spec: `is_group()` — true iff the variant is Group,
VariantGroup, or VersionGroup. -/
def PBXFSReference.is_group (self : PBXFSReference) : Bool :=
  match self.kind with
  | PBXFSReferenceKind.group => true
  | PBXFSReferenceKind.variantGroup => true
  | PBXFSReferenceKind.versionGroup => true
  | PBXFSReferenceKind.file => false

/-- The successful-resolution core of `children()`: each stored child
identifier is looked up in the collection and narrowed to an FSReference;
identifiers that do not resolve that way are dropped.  Each element is the
resolved `Rc` — modelled as the slot identifier paired with the value the
slot currently holds. -/
def resolveChildren (self : PBXFSReference) (objects : PBXObjectCollection) : List (String × PBXFSReference) :=
  if self.is_file || self.children_references.isNone then []
  else
    (self.children_references.getD []).filterMap (fun r =>
      match objects.get r with
      | some o =>
        match o.as_pbxfs_reference with
        | some c => some (r, c)
        | none => none
      | none => none)

/-- `PBXFSReference::children`: empty for a File node or an absent child set
(without touching the collection); otherwise upgrades the collection handle
(`expect("Objects to valid reference")` — modelled as the `Except.error`
case) and resolves every stored identifier. -/
def PBXFSReference.children (self : PBXFSReference) (objects : Option PBXObjectCollection) :
    Except String (List (String × PBXFSReference)) :=
  if self.is_file || self.children_references.isNone then Except.ok []
  else
    match objects with
    | none => Except.error "Objects to valid reference"
    | some objs => Except.ok (resolveChildren self objs)

/-- `PBXFSReference::get_subgroup`: `None` for a File receiver, otherwise
the first child that is group-like and whose path — or, when the path is
absent, whose name — equals the argument. -/
def PBXFSReference.get_subgroup (self : PBXFSReference) (name : String)
    (objects : Option PBXObjectCollection) :
    Except String (Option (String × PBXFSReference)) :=
  if self.is_file then Except.ok none
  else
    (self.children objects).map (fun cs =>
      (cs.filter (fun v => v.2.is_group)).find? (fun v =>
        match v.2.path with
        | some group_path => group_path == name
        | none =>
          match v.2.name with
          | some group_name => group_name == name
          | none => false))

/-- `PBXFSReference::get_file`: the first child that is a File and whose
name — or, when the name is absent, whose path — equals the argument. -/
def PBXFSReference.get_file (self : PBXFSReference) (name : String)
    (objects : Option PBXObjectCollection) :
    Except String (Option (String × PBXFSReference)) :=
  (self.children objects).map (fun cs =>
    cs.find? (fun o =>
      if !o.2.is_file then false
      else
        match o.2.name with
        | some n => n == name
        | none =>
          match o.2.path with
          | some p => p == name
          | none => false))

/-- `PBXFSReference::set_parent`. -/
def PBXFSReference.set_parent (self : PBXFSReference) (parent : Option String) : PBXFSReference :=
  { self with parent := parent }

/-- `PBXFSReference::assign_parent_to_children`, with explicit fuel for the
recursion: if `self` is group-like, for each resolved child slot, stamp the
child's parent back-reference with `this` and recurse into the child with a
handle to its own slot.  Mutation of a child `Rc` is modelled by updating
its slot in the collection; the current slot value is re-read at each step,
as `o.borrow_mut()` does. -/
def PBXFSReference.assign_parent_to_children :
    Nat → PBXFSReference → Option String → PBXObjectCollection → PBXObjectCollection
  | 0, _, _, objs => objs
  | fuel + 1, self, this, objs =>
    if self.is_group then
      (resolveChildren self objs).foldl (fun acc pr =>
        match acc.get pr.1 with
        | some (PBXObject.fs c) =>
          PBXFSReference.assign_parent_to_children fuel { c with parent := this } (some pr.1)
            (acc.set pr.1 (PBXObject.fs { c with parent := this }))
        | _ => acc) objs
    else objs

/-- One step of the parent-assignment fold, named for the proofs. -/
def assignStep (fuel : Nat) (this : Option String) (acc : PBXObjectCollection)
    (pr : String × PBXFSReference) : PBXObjectCollection :=
  match acc.get pr.1 with
  | some (PBXObject.fs c) =>
    PBXFSReference.assign_parent_to_children fuel { c with parent := this } (some pr.1)
      (acc.set pr.1 (PBXObject.fs { c with parent := this }))
  | _ => acc

/-- `impl PartialEq for PBXFSReference`: structural equality over every
content attribute, in the order of the source, excluding the parent
back-reference and the collection handle. -/
def fsEq (a b : PBXFSReference) : Bool :=
  decide (a.kind = b.kind)
    && decide (a.source_tree = b.source_tree)
    && decide (a.path = b.path)
    && decide (a.name = b.name)
    && decide (a.children_references = b.children_references)
    && decide (a.current_version_reference = b.current_version_reference)
    && decide (a.version_group_type = b.version_group_type)
    && decide (a.include_in_index = b.include_in_index)
    && decide (a.uses_tabs = b.uses_tabs)
    && decide (a.indent_width = b.indent_width)
    && decide (a.tab_width = b.tab_width)
    && decide (a.wraps_lines = b.wraps_lines)
    && decide (a.file_encoding = b.file_encoding)
    && decide (a.explicit_file_type = b.explicit_file_type)
    && decide (a.last_known_file_type = b.last_known_file_type)
    && decide (a.line_ending = b.line_ending)
    && decide (a.language_specification_identifier = b.language_specification_identifier)
    && decide (a.xc_language_specification_identifier = b.xc_language_specification_identifier)
    && decide (a.plist_structure_definition_identifier = b.plist_structure_definition_identifier)

/-- Erasing the parent back-reference: two records are content-equal iff
their parent-erased forms coincide. -/
def eraseParent (r : PBXFSReference) : PBXFSReference :=
  { r with parent := none }

/-- Copying every content attribute of `src` (excluding the parent
back-reference) into the node `dst`. -/
def copyAttrs (src dst : PBXFSReference) : PBXFSReference :=
  { src with parent := dst.parent }

/-- The matching predicate of `get_subgroup`: a present path must equal the
argument; only an absent path lets the name attribute be consulted. -/
def subgroupMatch (c : PBXFSReference) (name : String) : Bool :=
  match c.path with
  | some group_path => group_path == name
  | none =>
    match c.name with
    | some group_name => group_name == name
    | none => false

/-- The matching predicate of `get_file`: a present name attribute must
equal the argument; only an absent name lets the path be consulted. -/
def fileMatch (c : PBXFSReference) (name : String) : Bool :=
  match c.name with
  | some n => n == name
  | none =>
    match c.path with
    | some p => p == name
    | none => false

/-- Identifiers of all slots the parent-assignment recursion can touch
starting from a node value: the resolved children and, recursively, their
subtrees, to the given depth. -/
def subtreeIds : Nat → PBXFSReference → PBXObjectCollection → List String
  | 0, _, _ => []
  | fuel + 1, self, objs =>
    if self.is_group then
      (resolveChildren self objs).flatMap (fun pr => pr.1 :: subtreeIds fuel pr.2 objs)
    else []

/-- Pairwise disjointness of a family of identifier lists. -/
def pairwiseDisjB : List (List String) → Bool
  | [] => true
  | l :: rest => (rest.all (fun l2 => l.all (fun x => !l2.contains x))) && pairwiseDisjB rest

/-- Decidable formalisation of "the structure below this node is an acyclic
tree of height at most `fuel`": every resolved child heads a subtree that is
itself such a tree, no child occurs in its own subtree, and the slot sets of
distinct children's subtrees are pairwise disjoint. -/
def treeB : Nat → PBXFSReference → PBXObjectCollection → Bool
  | 0, self, objs => !self.is_group || (resolveChildren self objs).isEmpty
  | fuel + 1, self, objs =>
    !self.is_group
      || (((resolveChildren self objs).all (fun pr =>
            treeB fuel pr.2 objs && !((subtreeIds fuel pr.2 objs).contains pr.1)))
          && pairwiseDisjB ((resolveChildren self objs).map
              (fun pr => pr.1 :: subtreeIds fuel pr.2 objs)))

/-- Postcondition of parent-linkage maintenance: below this node, to the
given depth, every resolved child of every node carries the back-reference
to the slot of its actual parent. -/
def GoodBelow : Nat → PBXFSReference → Option String → PBXObjectCollection → Prop
  | 0, _, _, _ => True
  | fuel + 1, self, this, objs =>
    self.is_group = true →
      ∀ pr ∈ resolveChildren self objs,
        pr.2.parent = this ∧ GoodBelow fuel pr.2 (some pr.1) objs

/-- Two records of the collection that agree on everything except possibly
the parent back-reference. -/
def sameButParent : PBXObject → PBXObject → Prop
  | PBXObject.fs a, PBXObject.fs b => eraseParent a = eraseParent b
  | PBXObject.other, PBXObject.other => True
  | _, _ => False

/-- Lifting `sameButParent` to optional lookup results. -/
def optSBP : Option PBXObject → Option PBXObject → Prop
  | none, none => True
  | some a, some b => sameButParent a b
  | _, _ => False

/-- Two collection states that agree slot-by-slot up to parent
back-references. -/
def statesSBP (objs objs' : PBXObjectCollection) : Prop :=
  ∀ id : String, optSBP (objs.get id) (objs'.get id)

/-- Whether a fallible result is the fatal case. -/
def exceptIsError {α : Type} : Except String α → Bool
  | Except.error _ => true
  | Except.ok _ => false

/-- Pointwise relation between resolved child lists of two collection
states that agree up to parent back-references: same slot, same content. -/
def prRel (a b : String × PBXFSReference) : Prop :=
  a.1 = b.1 ∧ eraseParent a.2 = eraseParent b.2

/-- A small concrete project used to witness the theorems: a root group with
one subgroup (path "Source"), one file (name "Log.swift"), one identifier
resolving to a record of the wrong kind and one resolving to nothing; the
subgroup holds a file that has only a path. -/
def demoRoot : PBXFSReference :=
  { kind := PBXFSReferenceKind.group,
    path := some "ProjRoot",
    children_references := some ["a", "f", "x", "ghost"] }

def demoSource : PBXFSReference :=
  { kind := PBXFSReferenceKind.group,
    path := some "Source",
    name := some "Src",
    children_references := some ["f2"] }

def demoLog : PBXFSReference :=
  { kind := PBXFSReferenceKind.file,
    name := some "Log.swift" }

def demoMain : PBXFSReference :=
  { kind := PBXFSReferenceKind.file,
    path := some "Main.swift" }

def demoEmptyGroup : PBXFSReference :=
  { kind := PBXFSReferenceKind.group,
    children_references := some [] }

def demoObjs : PBXObjectCollection :=
  PBXObjectCollection.mk
    [("p", PBXObject.fs demoRoot),
     ("a", PBXObject.fs demoSource),
     ("f", PBXObject.fs demoLog),
     ("f2", PBXObject.fs demoMain),
     ("x", PBXObject.other)]

/-! ### Basic lemmas about the kind predicates, slots, and content equality -/

theorem is_group_eq_not_is_file (r : PBXFSReference) : r.is_group = !r.is_file := by
  unfold PBXFSReference.is_group PBXFSReference.is_file
  cases r.kind <;> rfl

theorem eraseParent_update (c : PBXFSReference) (t : Option String) :
    eraseParent { c with parent := t } = eraseParent c := rfl

theorem parent_update (c : PBXFSReference) (t : Option String) :
    ({ c with parent := t } : PBXFSReference).parent = t := rfl

theorem update_parent_self (c : PBXFSReference) (t : Option String) (h : c.parent = t) :
    ({ c with parent := t } : PBXFSReference) = c := by
  subst h; rfl

theorem eraseParent_kind (a b : PBXFSReference) (h : eraseParent a = eraseParent b) :
    a.kind = b.kind := by
  show (eraseParent a).kind = (eraseParent b).kind
  exact congrArg PBXFSReference.kind h

theorem eraseParent_children_references (a b : PBXFSReference)
    (h : eraseParent a = eraseParent b) :
    a.children_references = b.children_references := by
  show (eraseParent a).children_references = (eraseParent b).children_references
  exact congrArg PBXFSReference.children_references h

theorem eraseParent_is_file (a b : PBXFSReference) (h : eraseParent a = eraseParent b) :
    a.is_file = b.is_file := by
  unfold PBXFSReference.is_file
  rw [eraseParent_kind a b h]

theorem eraseParent_is_group (a b : PBXFSReference) (h : eraseParent a = eraseParent b) :
    a.is_group = b.is_group := by
  unfold PBXFSReference.is_group
  rw [eraseParent_kind a b h]

theorem lookup_update_self (l : List (String × PBXObject)) (id : String) (v : PBXObject)
    (h : (lookupEntry l id).isSome = true) :
    lookupEntry (updateEntry l id v) id = some v := by
  induction l with
  | nil => simp [lookupEntry] at h
  | cons hd tl ih =>
    by_cases hk : hd.1 = id
    · simp [lookupEntry, updateEntry, hk]
    · simp [lookupEntry, updateEntry, hk] at h ⊢
      exact ih h

theorem lookup_update_ne (l : List (String × PBXObject)) (id id' : String) (v : PBXObject)
    (h : id' ≠ id) :
    lookupEntry (updateEntry l id v) id' = lookupEntry l id' := by
  induction l with
  | nil => rfl
  | cons hd tl ih =>
    by_cases hk : hd.1 = id
    · subst hk
      simp [lookupEntry, updateEntry, Ne.symm h]
    · by_cases hk' : hd.1 = id'
      · simp [lookupEntry, updateEntry, hk, hk', h]
      · simp [lookupEntry, updateEntry, hk, hk', ih]

theorem update_lookup_self (l : List (String × PBXObject)) (id : String) (v : PBXObject)
    (h : lookupEntry l id = some v) :
    updateEntry l id v = l := by
  induction l with
  | nil => rfl
  | cons hd tl ih =>
    obtain ⟨k, w⟩ := hd
    by_cases hk : k = id
    · subst hk
      simp [lookupEntry] at h
      simp [updateEntry, h]
    · simp [lookupEntry, hk] at h
      simp [updateEntry, hk, ih h]

theorem get_set_self (objs : PBXObjectCollection) (id : String) (v : PBXObject)
    (h : (objs.get id).isSome = true) :
    (objs.set id v).get id = some v :=
  lookup_update_self objs.entries id v h

theorem get_set_ne (objs : PBXObjectCollection) (id id' : String) (v : PBXObject)
    (h : id' ≠ id) :
    (objs.set id v).get id' = objs.get id' :=
  lookup_update_ne objs.entries id id' v h

theorem set_get_self (objs : PBXObjectCollection) (id : String) (v : PBXObject)
    (h : objs.get id = some v) :
    objs.set id v = objs := by
  unfold PBXObjectCollection.set
  rw [update_lookup_self objs.entries id v h]

theorem sbp_refl (a : PBXObject) : sameButParent a a := by
  cases a <;> simp [sameButParent]

theorem sbp_trans (a b c : PBXObject) (h1 : sameButParent a b) (h2 : sameButParent b c) :
    sameButParent a c := by
  cases a <;> cases b <;> cases c <;> simp_all [sameButParent]

theorem optSBP_refl (a : Option PBXObject) : optSBP a a := by
  cases a with
  | none => trivial
  | some x => exact sbp_refl x

theorem optSBP_trans (a b c : Option PBXObject) (h1 : optSBP a b) (h2 : optSBP b c) :
    optSBP a c := by
  cases a <;> cases b <;> cases c <;> simp_all [optSBP]
  exact sbp_trans _ _ _ h1 h2

theorem statesSBP_refl (objs : PBXObjectCollection) : statesSBP objs objs :=
  fun id => optSBP_refl (objs.get id)

theorem statesSBP_trans (a b c : PBXObjectCollection) (h1 : statesSBP a b)
    (h2 : statesSBP b c) : statesSBP a c :=
  fun id => optSBP_trans _ _ _ (h1 id) (h2 id)

theorem statesSBP_set (objs acc : PBXObjectCollection) (i : String) (c : PBXFSReference)
    (t : Option String) (hs : statesSBP objs acc)
    (hget : acc.get i = some (PBXObject.fs c)) :
    statesSBP objs (acc.set i (PBXObject.fs { c with parent := t })) := by
  intro id
  by_cases hid : id = i
  · subst hid
    rw [get_set_self acc id _ (by rw [hget]; rfl)]
    have h1 := hs id
    rw [hget] at h1
    cases hobj : objs.get id with
    | none => rw [hobj] at h1; exact absurd h1 (by simp [optSBP])
    | some a =>
      rw [hobj] at h1
      simp only [optSBP] at h1 ⊢
      exact sbp_trans _ _ _ h1 (by simp [sameButParent, eraseParent_update])
  · rw [get_set_ne acc i id _ hid]
    exact hs id

/-! ### Resolution lemmas -/

theorem is_file_congr (r r' : PBXFSReference) (h : r.kind = r'.kind) :
    r.is_file = r'.is_file := by
  unfold PBXFSReference.is_file
  rw [h]

theorem is_group_congr (r r' : PBXFSReference) (h : r.kind = r'.kind) :
    r.is_group = r'.is_group := by
  unfold PBXFSReference.is_group
  rw [h]

theorem resolveChildren_congr (r r' : PBXFSReference) (objs : PBXObjectCollection)
    (hk : r.kind = r'.kind) (hc : r.children_references = r'.children_references) :
    resolveChildren r objs = resolveChildren r' objs := by
  unfold resolveChildren
  rw [is_file_congr r r' hk, hc]

theorem mem_resolveChildren_iff (self : PBXFSReference) (objs : PBXObjectCollection)
    (rs : List String) (pr : String × PBXFSReference)
    (hf : self.is_file = false) (hc : self.children_references = some rs) :
    pr ∈ resolveChildren self objs ↔
      pr.1 ∈ rs ∧ objs.get pr.1 = some (PBXObject.fs pr.2) := by
  have hcond : (self.is_file || self.children_references.isNone) = false := by
    rw [hf, hc]; rfl
  unfold resolveChildren
  rw [hcond, hc]
  rw [if_neg (by simp)]
  simp only [Option.getD_some, List.mem_filterMap]
  constructor
  · rintro ⟨a, ha, hres⟩
    cases hget : objs.get a with
    | none => rw [hget] at hres; exact absurd hres (by simp)
    | some o =>
      rw [hget] at hres
      cases o with
      | fs c =>
        simp only [PBXObject.as_pbxfs_reference, Option.some.injEq] at hres
        rw [← hres]
        exact ⟨ha, hget⟩
      | other => exact absurd hres (by simp [PBXObject.as_pbxfs_reference])
  · rintro ⟨hmem, hget⟩
    exact ⟨pr.1, hmem, by rw [hget]; simp [PBXObject.as_pbxfs_reference]⟩

theorem mem_resolveChildren_get (self : PBXFSReference) (objs : PBXObjectCollection)
    (pr : String × PBXFSReference) (h : pr ∈ resolveChildren self objs) :
    objs.get pr.1 = some (PBXObject.fs pr.2) := by
  by_cases hg : (self.is_file || self.children_references.isNone) = true
  · refine absurd h ?_
    unfold resolveChildren
    rw [if_pos (by exact_mod_cast hg)]
    exact List.not_mem_nil pr
  · simp only [Bool.or_eq_true, not_or, Bool.not_eq_true] at hg
    obtain ⟨hf, hn⟩ := hg
    cases hcr : self.children_references with
    | none => rw [hcr] at hn; exact absurd hn (by simp)
    | some rs => exact ((mem_resolveChildren_iff self objs rs pr hf hcr).mp h).2

theorem resolveChildren_SBP (r : PBXFSReference) (σ σ' : PBXObjectCollection)
    (hs : statesSBP σ σ') :
    List.Forall₂ prRel (resolveChildren r σ) (resolveChildren r σ') := by
  unfold resolveChildren
  by_cases hg : (r.is_file || r.children_references.isNone) = true
  · rw [if_pos (by exact_mod_cast hg), if_pos (by exact_mod_cast hg)]
    exact List.Forall₂.nil
  · rw [if_neg (by exact_mod_cast hg), if_neg (by exact_mod_cast hg)]
    induction (r.children_references.getD []) with
    | nil => exact List.Forall₂.nil
    | cons a l ih =>
      have hrel := hs a
      rw [List.filterMap_cons, List.filterMap_cons]
      cases hσ : σ.get a with
      | none =>
        cases hσ' : σ'.get a with
        | none => exact ih
        | some o =>
          rw [hσ, hσ'] at hrel
          exact absurd hrel (by simp [optSBP])
      | some o =>
        cases hσ' : σ'.get a with
        | none =>
          rw [hσ, hσ'] at hrel
          exact absurd hrel (by simp [optSBP])
        | some o' =>
          rw [hσ, hσ'] at hrel
          simp only [optSBP] at hrel
          cases o with
          | fs c =>
            cases o' with
            | fs c' =>
              simp only [PBXObject.as_pbxfs_reference]
              exact List.Forall₂.cons ⟨rfl, hrel⟩ ih
            | other => exact absurd hrel (by simp [sameButParent])
          | other =>
            cases o' with
            | fs c' => exact absurd hrel (by simp [sameButParent])
            | other =>
              simp only [PBXObject.as_pbxfs_reference]
              exact ih

theorem forall₂_prRel_fst (l l' : List (String × PBXFSReference))
    (h : List.Forall₂ prRel l l') : l.map Prod.fst = l'.map Prod.fst := by
  induction h with
  | nil => rfl
  | cons hab _ ih => simp only [List.map_cons, ih, hab.1]

theorem resolveChildren_fst_SBP (r : PBXFSReference) (σ σ' : PBXObjectCollection)
    (hs : statesSBP σ σ') :
    (resolveChildren r σ).map Prod.fst = (resolveChildren r σ').map Prod.fst :=
  forall₂_prRel_fst _ _ (resolveChildren_SBP r σ σ' hs)

/-! ### Subtree and tree-shape lemmas -/

theorem is_group_true_is_file_false (r : PBXFSReference) (h : r.is_group = true) :
    r.is_file = false := by
  rw [is_group_eq_not_is_file] at h
  cases hf : r.is_file with
  | false => rfl
  | true => rw [hf] at h; exact absurd h (by simp)

theorem mem_subtree_head (fuel : Nat) (c : PBXFSReference) (σ : PBXObjectCollection)
    (hg : c.is_group = true) (pr : String × PBXFSReference)
    (hpr : pr ∈ resolveChildren c σ) : pr.1 ∈ subtreeIds (fuel + 1) c σ := by
  unfold subtreeIds
  rw [if_pos (by exact_mod_cast hg)]
  rw [List.mem_flatMap]
  exact ⟨pr, hpr, List.mem_cons_self _ _⟩

theorem mem_subtree_of_child (fuel : Nat) (c : PBXFSReference) (σ : PBXObjectCollection)
    (hg : c.is_group = true) (pr : String × PBXFSReference)
    (hpr : pr ∈ resolveChildren c σ) (id : String)
    (hid : id ∈ subtreeIds fuel pr.2 σ) : id ∈ subtreeIds (fuel + 1) c σ := by
  unfold subtreeIds
  rw [if_pos (by exact_mod_cast hg)]
  rw [List.mem_flatMap]
  exact ⟨pr, hpr, List.mem_cons_of_mem _ hid⟩

theorem subtreeIds_congr_SBP : ∀ (fuel : Nat) (r r' : PBXFSReference)
    (σ σ' : PBXObjectCollection), statesSBP σ σ' → r.kind = r'.kind →
    r.children_references = r'.children_references →
    subtreeIds fuel r σ = subtreeIds fuel r' σ' := by
  intro fuel
  induction fuel with
  | zero => intro r r' σ σ' _ _ _; rfl
  | succ fuel ih =>
    intro r r' σ σ' hs hk hc
    unfold subtreeIds
    rw [is_group_congr r r' hk]
    by_cases hg : r'.is_group = true
    · rw [if_pos hg, if_pos hg]
      have hlist : List.Forall₂ prRel (resolveChildren r σ) (resolveChildren r' σ') := by
        rw [resolveChildren_congr r r' σ hk hc]
        exact resolveChildren_SBP r' σ σ' hs
      have haux : ∀ (l l' : List (String × PBXFSReference)), List.Forall₂ prRel l l' →
          l.flatMap (fun pr => pr.1 :: subtreeIds fuel pr.2 σ)
            = l'.flatMap (fun pr => pr.1 :: subtreeIds fuel pr.2 σ') := by
        intro l l' hl
        induction hl with
        | nil => rfl
        | cons hab htl ihl =>
          simp only [List.flatMap_cons, ihl]
          congr 2
          · exact hab.1
          · exact ih _ _ σ σ' hs (eraseParent_kind _ _ hab.2)
              (eraseParent_children_references _ _ hab.2)
      exact haux _ _ hlist
    · rw [if_neg hg, if_neg hg]

theorem treeB_congr_SBP : ∀ (fuel : Nat) (r r' : PBXFSReference)
    (σ σ' : PBXObjectCollection), statesSBP σ σ' → r.kind = r'.kind →
    r.children_references = r'.children_references →
    treeB fuel r σ = treeB fuel r' σ' := by
  intro fuel
  induction fuel with
  | zero =>
    intro r r' σ σ' hs hk hc
    have hlist : List.Forall₂ prRel (resolveChildren r σ) (resolveChildren r' σ') := by
      rw [resolveChildren_congr r r' σ hk hc]
      exact resolveChildren_SBP r' σ σ' hs
    have hlen := hlist.length_eq
    unfold treeB
    rw [is_group_congr r r' hk]
    cases hl1 : resolveChildren r σ with
    | nil =>
      cases hl2 : resolveChildren r' σ' with
      | nil => rfl
      | cons b l2 => rw [hl1, hl2] at hlen; exact absurd hlen (by simp)
    | cons a l1 =>
      cases hl2 : resolveChildren r' σ' with
      | nil => rw [hl1, hl2] at hlen; exact absurd hlen (by simp)
      | cons b l2 => rfl
  | succ fuel ih =>
    intro r r' σ σ' hs hk hc
    unfold treeB
    rw [is_group_congr r r' hk]
    have hlist : List.Forall₂ prRel (resolveChildren r σ) (resolveChildren r' σ') := by
      rw [resolveChildren_congr r r' σ hk hc]
      exact resolveChildren_SBP r' σ σ' hs
    have hall : ∀ (l l' : List (String × PBXFSReference)), List.Forall₂ prRel l l' →
        l.all (fun pr => treeB fuel pr.2 σ && !((subtreeIds fuel pr.2 σ).contains pr.1))
          = l'.all (fun pr => treeB fuel pr.2 σ' && !((subtreeIds fuel pr.2 σ').contains pr.1)) := by
      intro l l' hl
      induction hl with
      | nil => rfl
      | cons hab htl ihl =>
        simp only [List.all_cons, ihl]
        congr 1
        have h1 := ih _ _ σ σ' hs (eraseParent_kind _ _ hab.2)
          (eraseParent_children_references _ _ hab.2)
        have h2 := subtreeIds_congr_SBP fuel _ _ σ σ' hs (eraseParent_kind _ _ hab.2)
          (eraseParent_children_references _ _ hab.2)
        rw [h1, h2, hab.1]
    have hmap : ∀ (l l' : List (String × PBXFSReference)), List.Forall₂ prRel l l' →
        l.map (fun pr => pr.1 :: subtreeIds fuel pr.2 σ)
          = l'.map (fun pr => pr.1 :: subtreeIds fuel pr.2 σ') := by
      intro l l' hl
      induction hl with
      | nil => rfl
      | cons hab htl ihl =>
        simp only [List.map_cons, ihl]
        congr 2
        · exact hab.1
        · exact subtreeIds_congr_SBP fuel _ _ σ σ' hs (eraseParent_kind _ _ hab.2)
            (eraseParent_children_references _ _ hab.2)
    rw [hall _ _ hlist, hmap _ _ hlist]

theorem resolveChildren_eq_of_agree (fuel : Nat) (c : PBXFSReference)
    (σ σ' : PBXObjectCollection) (hs : statesSBP σ σ') (hg : c.is_group = true)
    (hagree : ∀ id ∈ subtreeIds (fuel + 1) c σ, σ'.get id = σ.get id) :
    resolveChildren c σ' = resolveChildren c σ := by
  have hf : c.is_file = false := is_group_true_is_file_false c hg
  cases hcr : c.children_references with
  | none =>
    unfold resolveChildren
    rw [hf, hcr]
    rfl
  | some rs =>
    have hcond : (c.is_file || c.children_references.isNone) = false := by
      rw [hf, hcr]; rfl
    unfold resolveChildren
    rw [hcond, hcr]
    rw [if_neg (by simp), if_neg (by simp)]
    simp only [Option.getD_some]
    apply List.filterMap_congr
    intro a ha
    cases hget : σ.get a with
    | none =>
      have hrel := hs a
      rw [hget] at hrel
      cases hget' : σ'.get a with
      | none => rfl
      | some o => rw [hget'] at hrel; exact absurd hrel (by simp [optSBP])
    | some o =>
      cases o with
      | fs x =>
        have hmem : (a, x) ∈ resolveChildren c σ := by
          rw [mem_resolveChildren_iff c σ rs (a, x) hf hcr]
          exact ⟨ha, hget⟩
        have hin : a ∈ subtreeIds (fuel + 1) c σ :=
          mem_subtree_head fuel c σ hg (a, x) hmem
        rw [hagree a hin, hget]
      | other =>
        have hrel := hs a
        rw [hget] at hrel
        cases hget' : σ'.get a with
        | none => rw [hget'] at hrel; exact absurd hrel (by simp [optSBP])
        | some o' =>
          rw [hget'] at hrel
          simp only [optSBP] at hrel
          cases o' with
          | fs y => exact absurd hrel (by simp [sameButParent])
          | other => rfl

theorem GoodBelow_transport : ∀ (fuel : Nat) (c : PBXFSReference) (h : Option String)
    (σ σ' : PBXObjectCollection), statesSBP σ σ' →
    (∀ id ∈ subtreeIds fuel c σ, σ'.get id = σ.get id) →
    GoodBelow fuel c h σ → GoodBelow fuel c h σ' := by
  intro fuel
  induction fuel with
  | zero => intro c h σ σ' _ _ _; trivial
  | succ fuel ih =>
    intro c h σ σ' hs hagree hgb
    unfold GoodBelow
    intro hg pr hmem'
    rw [resolveChildren_eq_of_agree fuel c σ σ' hs hg hagree] at hmem'
    obtain ⟨hpar, hbelow⟩ := hgb hg pr hmem'
    refine ⟨hpar, ih pr.2 (some pr.1) σ σ' hs ?_ hbelow⟩
    intro id hid
    exact hagree id (mem_subtree_of_child fuel c σ hg pr hmem' id hid)

/-! ### Parent-assignment lemmas -/

theorem assign_succ (fuel : Nat) (self : PBXFSReference) (this : Option String)
    (objs : PBXObjectCollection) :
    PBXFSReference.assign_parent_to_children (fuel + 1) self this objs =
      (if self.is_group then
        (resolveChildren self objs).foldl (assignStep fuel this) objs
      else objs) := rfl

theorem assignStep_eq_fs (fuel : Nat) (this : Option String) (acc : PBXObjectCollection)
    (pr : String × PBXFSReference) (c : PBXFSReference)
    (h : acc.get pr.1 = some (PBXObject.fs c)) :
    assignStep fuel this acc pr =
      PBXFSReference.assign_parent_to_children fuel { c with parent := this } (some pr.1)
        (acc.set pr.1 (PBXObject.fs { c with parent := this })) := by
  unfold assignStep
  rw [h]

theorem assignStep_eq_skip (fuel : Nat) (this : Option String) (acc : PBXObjectCollection)
    (pr : String × PBXFSReference)
    (h : ∀ c : PBXFSReference, acc.get pr.1 ≠ some (PBXObject.fs c)) :
    assignStep fuel this acc pr = acc := by
  unfold assignStep
  cases hacc : acc.get pr.1 with
  | none => rfl
  | some o =>
    cases o with
    | fs c => exact absurd hacc (h c)
    | other => rfl

theorem sbp_at (objs acc : PBXObjectCollection) (i : String) (a b : PBXFSReference)
    (hs : statesSBP objs acc) (h1 : objs.get i = some (PBXObject.fs a))
    (h2 : acc.get i = some (PBXObject.fs b)) : eraseParent a = eraseParent b := by
  have h := hs i
  rw [h1, h2] at h
  exact h

theorem assign_SBP : ∀ (fuel : Nat) (self : PBXFSReference) (this : Option String)
    (objs : PBXObjectCollection),
    statesSBP objs (PBXFSReference.assign_parent_to_children fuel self this objs) := by
  intro fuel
  induction fuel with
  | zero => intro self this objs; exact statesSBP_refl objs
  | succ fuel ih =>
    intro self this objs
    rw [assign_succ]
    by_cases hg : self.is_group = true
    · rw [if_pos hg]
      have haux : ∀ (l : List (String × PBXFSReference)) (acc : PBXObjectCollection),
          statesSBP objs acc → statesSBP objs (l.foldl (assignStep fuel this) acc) := by
        intro l
        induction l with
        | nil => intro acc h; exact h
        | cons pr l ihl =>
          intro acc hacc
          rw [List.foldl_cons]
          apply ihl
          cases hget : acc.get pr.1 with
          | none =>
            rw [assignStep_eq_skip fuel this acc pr (by intro c hc; rw [hget] at hc; exact absurd hc (by simp))]
            exact hacc
          | some o =>
            cases o with
            | fs c =>
              rw [assignStep_eq_fs fuel this acc pr c hget]
              exact statesSBP_trans _ _ _ (statesSBP_set objs acc pr.1 c this hacc hget)
                (ih _ _ _)
            | other =>
              rw [assignStep_eq_skip fuel this acc pr (by intro c hc; rw [hget] at hc; exact absurd hc (by simp))]
              exact hacc
      exact haux _ objs (statesSBP_refl objs)
    · rw [if_neg hg]
      exact statesSBP_refl objs

theorem assign_frame : ∀ (fuel : Nat) (self : PBXFSReference) (this : Option String)
    (objs : PBXObjectCollection) (id : String),
    id ∉ subtreeIds fuel self objs →
    (PBXFSReference.assign_parent_to_children fuel self this objs).get id = objs.get id := by
  intro fuel
  induction fuel with
  | zero => intro self this objs id _; rfl
  | succ fuel ih =>
    intro self this objs id hid
    rw [assign_succ]
    by_cases hg : self.is_group = true
    · rw [if_pos hg]
      have hid' : ∀ pr ∈ resolveChildren self objs,
          id ≠ pr.1 ∧ id ∉ subtreeIds fuel pr.2 objs := by
        intro pr hpr
        constructor
        · intro heq
          exact hid (heq ▸ mem_subtree_head fuel self objs hg pr hpr)
        · intro hmem
          exact hid (mem_subtree_of_child fuel self objs hg pr hpr id hmem)
      have haux : ∀ (l : List (String × PBXFSReference)) (acc : PBXObjectCollection),
          statesSBP objs acc →
          (∀ pr ∈ l, objs.get pr.1 = some (PBXObject.fs pr.2)
            ∧ id ≠ pr.1 ∧ id ∉ subtreeIds fuel pr.2 objs) →
          (l.foldl (assignStep fuel this) acc).get id = acc.get id := by
        intro l
        induction l with
        | nil => intro acc _ _; rfl
        | cons pr l ihl =>
          intro acc hacc hcond
          obtain ⟨hres, hne, hnsub⟩ := hcond pr (List.mem_cons_self pr l)
          rw [List.foldl_cons]
          cases hget : acc.get pr.1 with
          | none =>
            rw [assignStep_eq_skip fuel this acc pr (by intro c hc; rw [hget] at hc; exact absurd hc (by simp))]
            exact ihl acc hacc (fun q hq => hcond q (List.mem_cons_of_mem pr hq))
          | some o =>
            cases o with
            | fs c =>
              rw [assignStep_eq_fs fuel this acc pr c hget]
              have herase : eraseParent pr.2 = eraseParent c :=
                sbp_at objs acc pr.1 pr.2 c hacc hres hget
              have hsbp' : statesSBP objs
                  (acc.set pr.1 (PBXObject.fs { c with parent := this })) :=
                statesSBP_set objs acc pr.1 c this hacc hget
              have herase2 : eraseParent pr.2 = eraseParent { c with parent := this } :=
                herase.trans (eraseParent_update c this).symm
              have hsub_eq : subtreeIds fuel { c with parent := this }
                    (acc.set pr.1 (PBXObject.fs { c with parent := this }))
                  = subtreeIds fuel pr.2 objs := by
                refine (subtreeIds_congr_SBP fuel pr.2 { c with parent := this } objs _
                  hsbp' ?_ ?_).symm
                · exact eraseParent_kind _ _ herase2
                · exact eraseParent_children_references _ _ herase2
              have hstep : statesSBP objs ((assignStep fuel this acc pr)) := by
                rw [assignStep_eq_fs fuel this acc pr c hget]
                exact statesSBP_trans _ _ _ hsbp' (assign_SBP fuel _ _ _)
              rw [ihl _ (by rw [← assignStep_eq_fs fuel this acc pr c hget]; exact hstep)
                (fun q hq => hcond q (List.mem_cons_of_mem pr hq))]
              rw [ih _ _ _ id (by rw [hsub_eq]; exact hnsub)]
              exact get_set_ne acc pr.1 id _ hne
            | other =>
              rw [assignStep_eq_skip fuel this acc pr (by intro c hc; rw [hget] at hc; exact absurd hc (by simp))]
              exact ihl acc hacc (fun q hq => hcond q (List.mem_cons_of_mem pr hq))
      refine haux _ objs (statesSBP_refl objs) ?_
      intro pr hpr
      exact ⟨mem_resolveChildren_get self objs pr hpr, (hid' pr hpr).1, (hid' pr hpr).2⟩
    · rw [if_neg hg]

theorem foldl_assignStep_SBP (fuel : Nat) (this : Option String)
    (l : List (String × PBXFSReference)) (objs acc : PBXObjectCollection)
    (h : statesSBP objs acc) :
    statesSBP objs (l.foldl (assignStep fuel this) acc) := by
  induction l generalizing acc with
  | nil => exact h
  | cons pr l ihl =>
    rw [List.foldl_cons]
    apply ihl
    cases hget : acc.get pr.1 with
    | none =>
      rw [assignStep_eq_skip fuel this acc pr (by intro c hc; rw [hget] at hc; exact absurd hc (by simp))]
      exact h
    | some o =>
      cases o with
      | fs c =>
        rw [assignStep_eq_fs fuel this acc pr c hget]
        exact statesSBP_trans _ _ _ (statesSBP_set objs acc pr.1 c this h hget)
          (assign_SBP fuel _ _ _)
      | other =>
        rw [assignStep_eq_skip fuel this acc pr (by intro c hc; rw [hget] at hc; exact absurd hc (by simp))]
        exact h

theorem foldl_assignStep_frame (fuel : Nat) (this : Option String)
    (l : List (String × PBXFSReference)) (objs acc : PBXObjectCollection) (id : String)
    (hsbp : statesSBP objs acc)
    (hcond : ∀ q ∈ l, objs.get q.1 = some (PBXObject.fs q.2)
      ∧ id ≠ q.1 ∧ id ∉ subtreeIds fuel q.2 objs) :
    (l.foldl (assignStep fuel this) acc).get id = acc.get id := by
  induction l generalizing acc with
  | nil => rfl
  | cons pr l ihl =>
    obtain ⟨hres, hne, hnsub⟩ := hcond pr (List.mem_cons_self pr l)
    rw [List.foldl_cons]
    cases hget : acc.get pr.1 with
    | none =>
      rw [assignStep_eq_skip fuel this acc pr (by intro c hc; rw [hget] at hc; exact absurd hc (by simp))]
      exact ihl acc hsbp (fun q hq => hcond q (List.mem_cons_of_mem pr hq))
    | some o =>
      cases o with
      | fs c =>
        have herase : eraseParent pr.2 = eraseParent c :=
          sbp_at objs acc pr.1 pr.2 c hsbp hres hget
        have herase2 : eraseParent pr.2 = eraseParent { c with parent := this } :=
          herase.trans (eraseParent_update c this).symm
        have hsbp' : statesSBP objs
            (acc.set pr.1 (PBXObject.fs { c with parent := this })) :=
          statesSBP_set objs acc pr.1 c this hsbp hget
        have hsub_eq : subtreeIds fuel { c with parent := this }
              (acc.set pr.1 (PBXObject.fs { c with parent := this }))
            = subtreeIds fuel pr.2 objs :=
          (subtreeIds_congr_SBP fuel pr.2 { c with parent := this } objs _ hsbp'
            (eraseParent_kind _ _ herase2) (eraseParent_children_references _ _ herase2)).symm
        rw [assignStep_eq_fs fuel this acc pr c hget]
        have hstep_sbp : statesSBP objs
            (PBXFSReference.assign_parent_to_children fuel { c with parent := this }
              (some pr.1) (acc.set pr.1 (PBXObject.fs { c with parent := this }))) :=
          statesSBP_trans _ _ _ hsbp' (assign_SBP fuel _ _ _)
        rw [ihl _ hstep_sbp (fun q hq => hcond q (List.mem_cons_of_mem pr hq))]
        rw [assign_frame fuel _ _ _ id (by rw [hsub_eq]; exact hnsub)]
        exact get_set_ne acc pr.1 id _ hne
      | other =>
        rw [assignStep_eq_skip fuel this acc pr (by intro c hc; rw [hget] at hc; exact absurd hc (by simp))]
        exact ihl acc hsbp (fun q hq => hcond q (List.mem_cons_of_mem pr hq))

theorem contains_iff_mem (l : List String) (a : String) : l.contains a = true ↔ a ∈ l :=
  List.elem_iff

theorem pairwiseDisjB_split : ∀ (L1 : List (List String)) (x : List String)
    (L2 : List (List String)), pairwiseDisjB (L1 ++ x :: L2) = true →
    ∀ y ∈ L2, ∀ a ∈ x, a ∉ y := by
  intro L1
  induction L1 with
  | nil =>
    intro x L2 h y hy a ha hmem
    simp only [List.nil_append, pairwiseDisjB, Bool.and_eq_true] at h
    have h1 := (List.all_eq_true.mp h.1) y hy
    have h2 := (List.all_eq_true.mp h1) a ha
    rw [Bool.not_eq_true'] at h2
    have hcontains : y.contains a = true := (contains_iff_mem y a).mpr hmem
    rw [h2] at hcontains
    exact absurd hcontains (by simp)
  | cons hd L1 ih =>
    intro x L2 h y hy a ha
    simp only [List.cons_append, pairwiseDisjB, Bool.and_eq_true] at h
    exact ih x L2 h.2 y hy a ha

theorem treeB_succ_group (fuel : Nat) (self : PBXFSReference) (objs : PBXObjectCollection)
    (hg : self.is_group = true) (ht : treeB (fuel + 1) self objs = true) :
    (∀ pr ∈ resolveChildren self objs,
      treeB fuel pr.2 objs = true ∧ pr.1 ∉ subtreeIds fuel pr.2 objs)
    ∧ pairwiseDisjB ((resolveChildren self objs).map
        (fun pr => pr.1 :: subtreeIds fuel pr.2 objs)) = true := by
  unfold treeB at ht
  rw [hg] at ht
  simp only [Bool.not_true, Bool.false_or, Bool.and_eq_true] at ht
  constructor
  · intro pr hpr
    have h1 := (List.all_eq_true.mp ht.1) pr hpr
    rw [Bool.and_eq_true] at h1
    refine ⟨h1.1, ?_⟩
    intro hmem
    have h2 := h1.2
    rw [Bool.not_eq_true'] at h2
    have hcontains : (subtreeIds fuel pr.2 objs).contains pr.1 = true :=
      (contains_iff_mem _ _).mpr hmem
    rw [h2] at hcontains
    exact absurd hcontains (by simp)
  · exact ht.2

theorem assignStep_final (fuel : Nat) (this : Option String)
    (objs acc : PBXObjectCollection) (pr : String × PBXFSReference)
    (hsbp : statesSBP objs acc)
    (hres : objs.get pr.1 = some (PBXObject.fs pr.2))
    (htc : treeB fuel pr.2 objs = true)
    (hnotown : pr.1 ∉ subtreeIds fuel pr.2 objs)
    (ihgood : ∀ (r : PBXFSReference) (h : Option String) (σ : PBXObjectCollection),
      treeB fuel r σ = true →
      GoodBelow fuel r h (PBXFSReference.assign_parent_to_children fuel r h σ)) :
    ∃ cfin : PBXFSReference,
      (assignStep fuel this acc pr).get pr.1 = some (PBXObject.fs cfin)
      ∧ cfin.parent = this
      ∧ GoodBelow fuel cfin (some pr.1) (assignStep fuel this acc pr)
      ∧ statesSBP objs (assignStep fuel this acc pr) := by
  have hopt := hsbp pr.1
  rw [hres] at hopt
  cases hAget : acc.get pr.1 with
  | none => rw [hAget] at hopt; exact absurd hopt (by simp [optSBP])
  | some o =>
    rw [hAget] at hopt
    cases o with
    | other => exact absurd hopt (by simp [optSBP, sameButParent])
    | fs c =>
      simp only [optSBP, sameButParent] at hopt
      have herase2 : eraseParent pr.2 = eraseParent { c with parent := this } :=
        hopt.trans (eraseParent_update c this).symm
      have hsbp' : statesSBP objs
          (acc.set pr.1 (PBXObject.fs { c with parent := this })) :=
        statesSBP_set objs acc pr.1 c this hsbp hAget
      have hsub_eq : subtreeIds fuel { c with parent := this }
            (acc.set pr.1 (PBXObject.fs { c with parent := this }))
          = subtreeIds fuel pr.2 objs :=
        (subtreeIds_congr_SBP fuel pr.2 { c with parent := this } objs _ hsbp'
          (eraseParent_kind _ _ herase2) (eraseParent_children_references _ _ herase2)).symm
      have htc' : treeB fuel { c with parent := this }
            (acc.set pr.1 (PBXObject.fs { c with parent := this })) = true := by
        rw [← treeB_congr_SBP fuel pr.2 { c with parent := this } objs _ hsbp'
          (eraseParent_kind _ _ herase2) (eraseParent_children_references _ _ herase2)]
        exact htc
      rw [assignStep_eq_fs fuel this acc pr c hAget]
      refine ⟨{ c with parent := this }, ?_, rfl, ?_, ?_⟩
      · rw [assign_frame fuel _ _ _ pr.1 (by rw [hsub_eq]; exact hnotown)]
        exact get_set_self acc pr.1 _ (by rw [hAget]; rfl)
      · exact ihgood _ _ _ htc'
      · exact statesSBP_trans _ _ _ hsbp' (assign_SBP fuel _ _ _)

theorem assign_child_final (fuel : Nat) (this : Option String) (objs : PBXObjectCollection)
    (self : PBXFSReference) (hg : self.is_group = true)
    (ht : treeB (fuel + 1) self objs = true)
    (l₁ l₂ : List (String × PBXFSReference)) (pr : String × PBXFSReference)
    (hsplit : resolveChildren self objs = l₁ ++ pr :: l₂)
    (ihgood : ∀ (r : PBXFSReference) (h : Option String) (σ : PBXObjectCollection),
      treeB fuel r σ = true →
      GoodBelow fuel r h (PBXFSReference.assign_parent_to_children fuel r h σ)) :
    ∃ cfin : PBXFSReference,
      ((resolveChildren self objs).foldl (assignStep fuel this) objs).get pr.1
          = some (PBXObject.fs cfin)
      ∧ cfin.parent = this
      ∧ GoodBelow fuel cfin (some pr.1)
          ((resolveChildren self objs).foldl (assignStep fuel this) objs) := by
  have hmempr : pr ∈ resolveChildren self objs := by
    rw [hsplit]
    exact List.mem_append.mpr (Or.inr (List.mem_cons_self pr l₂))
  have hres : objs.get pr.1 = some (PBXObject.fs pr.2) :=
    mem_resolveChildren_get self objs pr hmempr
  obtain ⟨hchild, hpd⟩ := treeB_succ_group fuel self objs hg ht
  obtain ⟨htc, hnotown⟩ := hchild pr hmempr
  have hA : statesSBP objs (l₁.foldl (assignStep fuel this) objs) :=
    foldl_assignStep_SBP fuel this l₁ objs objs (statesSBP_refl objs)
  obtain ⟨cfin, hBget, hpar, hGB, hBsbp⟩ :=
    assignStep_final fuel this objs (l₁.foldl (assignStep fuel this) objs) pr hA hres htc
      hnotown ihgood
  have hofold : (resolveChildren self objs).foldl (assignStep fuel this) objs
      = l₂.foldl (assignStep fuel this)
          (assignStep fuel this (l₁.foldl (assignStep fuel this) objs) pr) := by
    conv_lhs => rw [hsplit]
    rw [List.foldl_append, List.foldl_cons]
  have hmapsplit : (resolveChildren self objs).map
        (fun q => q.1 :: subtreeIds fuel q.2 objs)
      = l₁.map (fun q => q.1 :: subtreeIds fuel q.2 objs)
        ++ (pr.1 :: subtreeIds fuel pr.2 objs)
          :: l₂.map (fun q => q.1 :: subtreeIds fuel q.2 objs) := by
    rw [hsplit, List.map_append, List.map_cons]
  have hdisj := pairwiseDisjB_split _ _ _ (by rw [← hmapsplit]; exact hpd)
  have hframe : ∀ id ∈ pr.1 :: subtreeIds fuel pr.2 objs,
      (l₂.foldl (assignStep fuel this)
          (assignStep fuel this (l₁.foldl (assignStep fuel this) objs) pr)).get id
        = (assignStep fuel this (l₁.foldl (assignStep fuel this) objs) pr).get id := by
    intro id hid
    refine foldl_assignStep_frame fuel this l₂ objs _ id hBsbp ?_
    intro q hq
    have hqmem : q ∈ resolveChildren self objs := by
      rw [hsplit]
      exact List.mem_append.mpr (Or.inr (List.mem_cons_of_mem pr hq))
    have hqres : objs.get q.1 = some (PBXObject.fs q.2) :=
      mem_resolveChildren_get self objs q hqmem
    have hy : (q.1 :: subtreeIds fuel q.2 objs)
        ∈ l₂.map (fun q => q.1 :: subtreeIds fuel q.2 objs) :=
      List.mem_map.mpr ⟨q, hq, rfl⟩
    have hnot := hdisj _ hy id hid
    simp only [List.mem_cons, not_or] at hnot
    exact ⟨hqres, hnot.1, hnot.2⟩
  have herase_fin : eraseParent pr.2 = eraseParent cfin :=
    sbp_at objs _ pr.1 pr.2 cfin hBsbp hres hBget
  refine ⟨cfin, ?_, hpar, ?_⟩
  · rw [hofold, hframe pr.1 (List.mem_cons_self _ _), hBget]
  · rw [hofold]
    refine GoodBelow_transport fuel cfin (some pr.1) _ _
      (foldl_assignStep_SBP fuel this l₂ _ _ (statesSBP_refl _)) ?_ hGB
    intro id hid
    have hsub_eq : subtreeIds fuel cfin
          (assignStep fuel this (l₁.foldl (assignStep fuel this) objs) pr)
        = subtreeIds fuel pr.2 objs :=
      (subtreeIds_congr_SBP fuel pr.2 cfin objs _ hBsbp
        (eraseParent_kind _ _ herase_fin)
        (eraseParent_children_references _ _ herase_fin)).symm
    rw [hsub_eq] at hid
    exact hframe id (List.mem_cons_of_mem _ hid)

theorem assign_good : ∀ (fuel : Nat) (self : PBXFSReference) (this : Option String)
    (objs : PBXObjectCollection), treeB fuel self objs = true →
    GoodBelow fuel self this (PBXFSReference.assign_parent_to_children fuel self this objs) := by
  intro fuel
  induction fuel with
  | zero => intro self this objs _; trivial
  | succ fuel ih =>
    intro self this objs ht
    by_cases hg : self.is_group = true
    · rw [assign_succ, if_pos hg]
      unfold GoodBelow
      intro _ pr' hmem'
      have hsbp : statesSBP objs
          ((resolveChildren self objs).foldl (assignStep fuel this) objs) :=
        foldl_assignStep_SBP fuel this _ objs objs (statesSBP_refl objs)
      have hget' := mem_resolveChildren_get self _ pr' hmem'
      have hmemfst : pr'.1 ∈ (resolveChildren self objs).map Prod.fst := by
        rw [resolveChildren_fst_SBP self objs _ hsbp]
        exact List.mem_map.mpr ⟨pr', hmem', rfl⟩
      obtain ⟨pr, hpr, hpreq⟩ := List.mem_map.mp hmemfst
      obtain ⟨l₁, l₂, hsplit⟩ := List.append_of_mem hpr
      obtain ⟨cfin, hget, hpar, hGB⟩ :=
        assign_child_final fuel this objs self hg ht l₁ l₂ pr hsplit ih
      rw [← hpreq] at hget'
      rw [hget'] at hget
      simp only [Option.some.injEq, PBXObject.fs.injEq] at hget
      subst hget
      exact ⟨hpar, by rw [← hpreq]; exact hGB⟩
    · rw [assign_succ, if_neg hg]
      unfold GoodBelow
      intro hg'
      exact absurd hg' hg

theorem assign_fix : ∀ (fuel : Nat) (self : PBXFSReference) (this : Option String)
    (objs : PBXObjectCollection), GoodBelow fuel self this objs →
    PBXFSReference.assign_parent_to_children fuel self this objs = objs := by
  intro fuel
  induction fuel with
  | zero => intro self this objs _; rfl
  | succ fuel ih =>
    intro self this objs hgb
    by_cases hg : self.is_group = true
    · rw [assign_succ, if_pos hg]
      unfold GoodBelow at hgb
      have hgb' := hgb hg
      have haux : ∀ (l : List (String × PBXFSReference)),
          (∀ pr ∈ l, pr ∈ resolveChildren self objs) →
          l.foldl (assignStep fuel this) objs = objs := by
        intro l
        induction l with
        | nil => intro _; rfl
        | cons pr l ihl =>
          intro hsub
          have hpr := hsub pr (List.mem_cons_self pr l)
          have hres := mem_resolveChildren_get self objs pr hpr
          obtain ⟨hpar, hbelow⟩ := hgb' pr hpr
          have hupd : ({ pr.2 with parent := this } : PBXFSReference) = pr.2 :=
            update_parent_self pr.2 this hpar
          rw [List.foldl_cons]
          rw [assignStep_eq_fs fuel this objs pr pr.2 hres]
          rw [hupd]
          rw [set_get_self objs pr.1 _ hres]
          rw [ih pr.2 (some pr.1) objs hbelow]
          exact ihl (fun q hq => hsub q (List.mem_cons_of_mem pr hq))
      exact haux _ (fun q h => h)
    · rw [assign_succ, if_neg hg]

theorem assign_stab : ∀ (fuel : Nat) (self : PBXFSReference) (this : Option String)
    (objs : PBXObjectCollection) (fuel' : Nat), treeB fuel self objs = true →
    fuel ≤ fuel' →
    PBXFSReference.assign_parent_to_children fuel' self this objs
      = PBXFSReference.assign_parent_to_children fuel self this objs := by
  intro fuel
  induction fuel with
  | zero =>
    intro self this objs fuel' ht _
    cases fuel' with
    | zero => rfl
    | succ f' =>
      rw [assign_succ]
      by_cases hg : self.is_group = true
      · rw [if_pos hg]
        simp only [treeB, hg, Bool.not_true, Bool.false_or] at ht
        cases hl : resolveChildren self objs with
        | nil => rfl
        | cons a l =>
          rw [hl] at ht
          exact absurd ht (by simp [List.isEmpty])
      · rw [if_neg hg]
        rfl
  | succ fuel ih =>
    intro self this objs fuel' ht hle
    cases fuel' with
    | zero => exact absurd hle (by omega)
    | succ f' =>
      have hle' : fuel ≤ f' := Nat.succ_le_succ_iff.mp hle
      rw [assign_succ, assign_succ]
      by_cases hg : self.is_group = true
      · rw [if_pos hg, if_pos hg]
        obtain ⟨hchild, _⟩ := treeB_succ_group fuel self objs hg ht
        have haux : ∀ (l : List (String × PBXFSReference)) (acc : PBXObjectCollection),
            statesSBP objs acc →
            (∀ pr ∈ l, pr ∈ resolveChildren self objs) →
            l.foldl (assignStep f' this) acc = l.foldl (assignStep fuel this) acc := by
          intro l
          induction l with
          | nil => intro acc _ _; rfl
          | cons pr l ihl =>
            intro acc hsbp hsub
            have hpr := hsub pr (List.mem_cons_self pr l)
            have hres := mem_resolveChildren_get self objs pr hpr
            obtain ⟨htc, _⟩ := hchild pr hpr
            rw [List.foldl_cons, List.foldl_cons]
            have hstepeq : assignStep f' this acc pr = assignStep fuel this acc pr := by
              cases hget : acc.get pr.1 with
              | none =>
                rw [assignStep_eq_skip f' this acc pr (by intro c hc; rw [hget] at hc; exact absurd hc (by simp))]
                rw [assignStep_eq_skip fuel this acc pr (by intro c hc; rw [hget] at hc; exact absurd hc (by simp))]
              | some o =>
                cases o with
                | other =>
                  rw [assignStep_eq_skip f' this acc pr (by intro c hc; rw [hget] at hc; exact absurd hc (by simp))]
                  rw [assignStep_eq_skip fuel this acc pr (by intro c hc; rw [hget] at hc; exact absurd hc (by simp))]
                | fs c =>
                  rw [assignStep_eq_fs f' this acc pr c hget]
                  rw [assignStep_eq_fs fuel this acc pr c hget]
                  have herase : eraseParent pr.2 = eraseParent c :=
                    sbp_at objs acc pr.1 pr.2 c hsbp hres hget
                  have herase2 : eraseParent pr.2
                      = eraseParent { c with parent := this } :=
                    herase.trans (eraseParent_update c this).symm
                  have hsbp' : statesSBP objs
                      (acc.set pr.1 (PBXObject.fs { c with parent := this })) :=
                    statesSBP_set objs acc pr.1 c this hsbp hget
                  have htc' : treeB fuel { c with parent := this }
                      (acc.set pr.1 (PBXObject.fs { c with parent := this })) = true := by
                    rw [← treeB_congr_SBP fuel pr.2 { c with parent := this } objs _ hsbp'
                      (eraseParent_kind _ _ herase2)
                      (eraseParent_children_references _ _ herase2)]
                    exact htc
                  exact ih _ _ _ f' htc' hle'
            rw [hstepeq]
            have hsbp2 : statesSBP objs (assignStep fuel this acc pr) :=
              foldl_assignStep_SBP fuel this [pr] objs acc hsbp
            exact ihl _ hsbp2 (fun q hq => hsub q (List.mem_cons_of_mem pr hq))
        exact haux _ objs (statesSBP_refl objs) (fun q h => h)
      · rw [if_neg hg, if_neg hg]

/-! ### Lookup-operation support lemmas -/

theorem children_some (self : PBXFSReference) (objs : PBXObjectCollection) :
    self.children (some objs) = Except.ok (resolveChildren self objs) := by
  unfold PBXFSReference.children
  by_cases hgd : (self.is_file || self.children_references.isNone) = true
  · rw [if_pos (by exact_mod_cast hgd)]
    have hrc : resolveChildren self objs = [] := by
      unfold resolveChildren
      rw [if_pos (by exact_mod_cast hgd)]
    rw [hrc]
  · rw [if_neg (by exact_mod_cast hgd)]

theorem find?_filter_fuse (l : List (String × PBXFSReference))
    (p q : (String × PBXFSReference) → Bool) :
    (l.filter p).find? q = l.find? (fun a => p a && q a) := by
  induction l with
  | nil => rfl
  | cons a l ih =>
    cases hp : p a with
    | false =>
      rw [List.filter_cons_of_neg (by simp [hp])]
      rw [List.find?_cons_of_neg l (by simp [hp]), ih]
    | true =>
      rw [List.filter_cons_of_pos hp]
      cases hq : q a with
      | false =>
        rw [List.find?_cons_of_neg (l.filter p) (by simp [hq])]
        rw [List.find?_cons_of_neg l (by simp [hp, hq]), ih]
      | true =>
        rw [List.find?_cons_of_pos (l.filter p) hq]
        rw [List.find?_cons_of_pos l (by simp [hp, hq])]

theorem fsEq_iff_eraseParent (a b : PBXFSReference) :
    fsEq a b = true ↔ eraseParent a = eraseParent b := by
  cases a
  cases b
  simp only [fsEq, eraseParent, Bool.and_eq_true, decide_eq_true_eq,
    PBXFSReference.mk.injEq, and_true]
  tauto

/-! ### Claim theorems -/

/-- C1: for a non-File receiver, `get_subgroup name` returns the first
element of `children()` that is group-like and whose present path equals
`name`, or — only when the path is absent — whose present name attribute
equals `name`; a present non-matching path blocks any match on the name
attribute; for a File receiver it returns `none` without error. -/
theorem get_subgroup_spec (self : PBXFSReference) (name : String)
    (objs : PBXObjectCollection) (w : Option PBXObjectCollection) :
    (self.is_file = true → self.get_subgroup name w = Except.ok none)
    ∧ (self.is_file = false →
        self.get_subgroup name (some objs)
          = Except.ok ((resolveChildren self objs).find?
              (fun v => v.2.is_group && subgroupMatch v.2 name)))
    ∧ (∀ (c : PBXFSReference) (p : String),
        c.path = some p → p ≠ name → subgroupMatch c name = false) := by
  refine ⟨?_, ?_, ?_⟩
  · intro hf
    unfold PBXFSReference.get_subgroup
    rw [if_pos (by exact_mod_cast hf)]
  · intro hf
    unfold PBXFSReference.get_subgroup
    rw [if_neg (by simp [hf])]
    rw [children_some]
    simp only [Except.map]
    rw [find?_filter_fuse]
    rfl
  · intro c p hp hne
    unfold subgroupMatch
    rw [hp]
    exact beq_eq_false_iff_ne.mpr hne

theorem get_subgroup_spec_witness :
    demoRoot.is_file = false
    ∧ demoRoot.get_subgroup "Source" (some demoObjs)
        = Except.ok ((resolveChildren demoRoot demoObjs).find?
            (fun v => v.2.is_group && subgroupMatch v.2 "Source")) :=
  ⟨by decide, (get_subgroup_spec demoRoot "Source" demoObjs (some demoObjs)).2.1 (by decide)⟩

/-- C2: `get_file name` returns the first element of `children()` that is a
File and whose present name attribute equals `name`, or — only when the
name attribute is absent — whose present path equals `name`; on a node with
both attributes present and different, `get_file` matches only the name
attribute while `get_subgroup` matches only the path. -/
theorem get_file_spec (self : PBXFSReference) (name : String)
    (objs : PBXObjectCollection) :
    (self.get_file name (some objs)
      = Except.ok ((resolveChildren self objs).find?
          (fun o => o.2.is_file && fileMatch o.2 name)))
    ∧ (∀ (c : PBXFSReference) (p n : String),
        c.path = some p → c.name = some n → p ≠ n →
        fileMatch c n = true ∧ fileMatch c p = false
          ∧ subgroupMatch c p = true ∧ subgroupMatch c n = false) := by
  constructor
  · unfold PBXFSReference.get_file
    rw [children_some]
    simp only [Except.map]
    have hfun : (fun o : String × PBXFSReference =>
        if !o.2.is_file then false
        else
          match o.2.name with
          | some n => n == name
          | none =>
            match o.2.path with
            | some p => p == name
            | none => false)
        = (fun o => o.2.is_file && fileMatch o.2 name) := by
      funext o
      cases hf : o.2.is_file with
      | false => simp [hf]
      | true => simp [hf, fileMatch]
    rw [hfun]
  · intro c p n hp hn hne
    refine ⟨?_, ?_, ?_, ?_⟩
    · unfold fileMatch
      rw [hn]
      exact beq_self_eq_true n
    · unfold fileMatch
      rw [hn]
      exact beq_eq_false_iff_ne.mpr (fun h => hne h.symm)
    · unfold subgroupMatch
      rw [hp]
      exact beq_self_eq_true p
    · unfold subgroupMatch
      rw [hp]
      exact beq_eq_false_iff_ne.mpr hne

theorem get_file_spec_witness :
    demoSource.path = some "Source" ∧ demoSource.name = some "Src"
    ∧ ("Source" : String) ≠ "Src"
    ∧ (fileMatch demoSource "Src" = true ∧ fileMatch demoSource "Source" = false
        ∧ subgroupMatch demoSource "Source" = true
        ∧ subgroupMatch demoSource "Src" = false) :=
  ⟨by decide, by decide, by decide,
    (get_file_spec demoRoot "Log.swift" demoObjs).2 demoSource "Source" "Src"
      (by decide) (by decide) (by decide)⟩

/-- C3: `children()` is empty (never an error) for a File node or an absent
child set; otherwise, over the live collection, an identifier contributes
exactly its resolved FSReference record, and identifiers resolving to no
record or to a record of another kind are silently dropped. -/
theorem children_spec (self : PBXFSReference) (objs : PBXObjectCollection)
    (w : Option PBXObjectCollection) :
    (self.is_file = true → self.children w = Except.ok [])
    ∧ (self.children_references = none → self.children w = Except.ok [])
    ∧ (∀ rs : List String, self.is_file = false → self.children_references = some rs →
        ∃ l, self.children (some objs) = Except.ok l
          ∧ ∀ (id : String) (c : PBXFSReference),
              (id, c) ∈ l ↔ id ∈ rs ∧ objs.get id = some (PBXObject.fs c)) := by
  refine ⟨?_, ?_, ?_⟩
  · intro hf
    unfold PBXFSReference.children
    rw [if_pos (by simp [hf])]
  · intro hc
    unfold PBXFSReference.children
    rw [if_pos (by simp [hc])]
  · intro rs hf hc
    refine ⟨resolveChildren self objs, children_some self objs, ?_⟩
    intro id c
    exact mem_resolveChildren_iff self objs rs (id, c) hf hc

theorem children_spec_witness :
    demoSource.is_file = false ∧ demoSource.children_references = some ["f2"]
    ∧ ∃ l, demoSource.children (some demoObjs) = Except.ok l
        ∧ ∀ (id : String) (c : PBXFSReference),
            (id, c) ∈ l ↔ id ∈ ["f2"] ∧ demoObjs.get id = some (PBXObject.fs c) :=
  ⟨by decide, by decide,
    (children_spec demoSource demoObjs (some demoObjs)).2.2 ["f2"] (by decide) (by decide)⟩

/-- C6: `children()` fails fatally exactly when it attempts resolution with
the collection handle no longer upgradable: the receiver is not a File, the
child set is present, and the collection is gone; under a live collection,
or in any empty case, it never fails. -/
theorem children_fatal_iff (self : PBXFSReference) (w : Option PBXObjectCollection) :
    exceptIsError (self.children w) = true ↔
      self.is_file = false ∧ self.children_references.isSome = true ∧ w = none := by
  unfold PBXFSReference.children
  cases hf : self.is_file with
  | true =>
    rw [if_pos (by simp)]
    simp [exceptIsError]
  | false =>
    cases hcr : self.children_references with
    | none =>
      rw [if_pos (by simp)]
      simp [exceptIsError]
    | some rs =>
      rw [if_neg (by simp)]
      cases w with
      | none => simp [exceptIsError]
      | some objs => simp [exceptIsError]

theorem children_fatal_iff_witness :
    exceptIsError (demoEmptyGroup.children none) = true ↔
      demoEmptyGroup.is_file = false
        ∧ demoEmptyGroup.children_references.isSome = true
        ∧ (none : Option PBXObjectCollection) = none :=
  children_fatal_iff demoEmptyGroup none

/-- C10: when `is_file()` is true or the child set is absent, `children`,
`get_subgroup`, and `get_file` never touch the collection, so they return
empty results even after teardown; a group-like node with a present child
set (even an empty one) upgrades the handle on every `children()` call, so
that call after teardown is fatal although the result would be empty. -/
theorem no_collection_access (self : PBXFSReference) (name : String) :
    ((self.is_file = true ∨ self.children_references = none) →
      self.children none = Except.ok []
      ∧ self.get_subgroup name none = Except.ok none
      ∧ self.get_file name none = Except.ok none)
    ∧ (self.is_file = false → self.children_references.isSome = true →
        exceptIsError (self.children none) = true) := by
  constructor
  · intro hcase
    have hch : self.children none = Except.ok [] := by
      unfold PBXFSReference.children
      rcases hcase with hf | hc
      · rw [if_pos (by simp [hf])]
      · rw [if_pos (by simp [hc])]
    refine ⟨hch, ?_, ?_⟩
    · unfold PBXFSReference.get_subgroup
      by_cases hf : self.is_file = true
      · rw [if_pos (by exact_mod_cast hf)]
      · rw [if_neg hf, hch]
        rfl
    · unfold PBXFSReference.get_file
      rw [hch]
      rfl
  · intro hf hs
    unfold PBXFSReference.children
    cases hcr : self.children_references with
    | none => rw [hcr] at hs; exact absurd hs (by simp)
    | some rs =>
      rw [if_neg (by simp [hf])]
      rfl

theorem no_collection_access_witness :
    (demoLog.is_file = true ∨ demoLog.children_references = none)
    ∧ (demoLog.children none = Except.ok []
        ∧ demoLog.get_subgroup "x" none = Except.ok none
        ∧ demoLog.get_file "x" none = Except.ok none)
    ∧ (demoEmptyGroup.is_file = false
        ∧ demoEmptyGroup.children_references.isSome = true
        ∧ exceptIsError (demoEmptyGroup.children none) = true) :=
  ⟨Or.inl (by decide),
    (no_collection_access demoLog "x").1 (Or.inl (by decide)),
    by decide, by decide,
    (no_collection_access demoEmptyGroup "x").2 (by decide) (by decide)⟩

/-- C4: after `assign_parent_to_children` on a node `p` with a handle to
`p`'s own slot, over an acyclic tree, every resolved child of `p` carries
the back-reference `some pid`, and recursively every resolved descendant
carries the back-reference to its actual parent's slot; the handle still
resolves to `p` itself. -/
theorem assign_parent_correct (fuel : Nat) (pid : String) (p : PBXFSReference)
    (objs : PBXObjectCollection)
    (hp : objs.get pid = some (PBXObject.fs p))
    (ht : treeB fuel p objs = true)
    (hnot : pid ∉ subtreeIds fuel p objs) :
    GoodBelow fuel p (some pid)
      (PBXFSReference.assign_parent_to_children fuel p (some pid) objs)
    ∧ (PBXFSReference.assign_parent_to_children fuel p (some pid) objs).get pid
        = some (PBXObject.fs p) :=
  ⟨assign_good fuel p (some pid) objs ht, by
    rw [assign_frame fuel p (some pid) objs pid hnot]
    exact hp⟩

theorem assign_parent_correct_witness :
    demoObjs.get "p" = some (PBXObject.fs demoRoot)
    ∧ treeB 3 demoRoot demoObjs = true
    ∧ ("p" ∉ subtreeIds 3 demoRoot demoObjs)
    ∧ (GoodBelow 3 demoRoot (some "p")
        (PBXFSReference.assign_parent_to_children 3 demoRoot (some "p") demoObjs)
      ∧ (PBXFSReference.assign_parent_to_children 3 demoRoot (some "p") demoObjs).get "p"
          = some (PBXObject.fs demoRoot)) :=
  ⟨by decide, by decide, by decide,
    assign_parent_correct 3 "p" demoRoot demoObjs (by decide) (by decide) (by decide)⟩

/-- C7: on an acyclic tree state, running `assign_parent_to_children` a
second time with the same handle leaves the whole collection state exactly
as after the first run. -/
theorem assign_idempotent (fuel : Nat) (self : PBXFSReference) (this : Option String)
    (objs : PBXObjectCollection) (ht : treeB fuel self objs = true) :
    PBXFSReference.assign_parent_to_children fuel self this
        (PBXFSReference.assign_parent_to_children fuel self this objs)
      = PBXFSReference.assign_parent_to_children fuel self this objs :=
  assign_fix fuel self this _ (assign_good fuel self this objs ht)

theorem assign_idempotent_witness :
    treeB 3 demoRoot demoObjs = true
    ∧ PBXFSReference.assign_parent_to_children 3 demoRoot (some "p")
        (PBXFSReference.assign_parent_to_children 3 demoRoot (some "p") demoObjs)
      = PBXFSReference.assign_parent_to_children 3 demoRoot (some "p") demoObjs :=
  ⟨by decide, assign_idempotent 3 demoRoot (some "p") demoObjs (by decide)⟩

/-- C8: under the acyclicity hypothesis (the tree below the node has height
at most `fuel`), the recursion terminates: giving the procedure any more
fuel than the tree height yields the identical result, so the recursion
needs only finitely many steps; acyclicity is a hypothesis the procedure
itself does not check. -/
theorem assign_terminates (fuel fuel' : Nat) (self : PBXFSReference)
    (this : Option String) (objs : PBXObjectCollection)
    (ht : treeB fuel self objs = true) (hle : fuel ≤ fuel') :
    PBXFSReference.assign_parent_to_children fuel' self this objs
      = PBXFSReference.assign_parent_to_children fuel self this objs :=
  assign_stab fuel self this objs fuel' ht hle

theorem assign_terminates_witness :
    treeB 3 demoRoot demoObjs = true ∧ 3 ≤ 7
    ∧ PBXFSReference.assign_parent_to_children 7 demoRoot (some "p") demoObjs
      = PBXFSReference.assign_parent_to_children 3 demoRoot (some "p") demoObjs :=
  ⟨by decide, by decide,
    assign_terminates 3 7 demoRoot (some "p") demoObjs (by decide) (by decide)⟩

/-- C9: `assign_parent_to_children` mutates only parent back-references of
the receiver's resolved descendants: every slot keeps its record up to the
parent field (so membership and structural equality are preserved), every
slot outside the resolved subtree — in particular the receiver's own slot
when it is not its own descendant — is completely unchanged. -/
theorem assign_frame_effect (fuel : Nat) (self : PBXFSReference) (this : Option String)
    (objs : PBXObjectCollection) :
    (∀ id : String,
      optSBP (objs.get id)
        ((PBXFSReference.assign_parent_to_children fuel self this objs).get id))
    ∧ (∀ (id : String) (a b : PBXFSReference),
        objs.get id = some (PBXObject.fs a) →
        (PBXFSReference.assign_parent_to_children fuel self this objs).get id
          = some (PBXObject.fs b) →
        fsEq a b = true)
    ∧ (∀ id : String, id ∉ subtreeIds fuel self objs →
        (PBXFSReference.assign_parent_to_children fuel self this objs).get id
          = objs.get id)
    ∧ (∀ (pid : String) (q : PBXFSReference),
        objs.get pid = some (PBXObject.fs q) →
        pid ∉ subtreeIds fuel self objs →
        (PBXFSReference.assign_parent_to_children fuel self this objs).get pid
          = some (PBXObject.fs q)) := by
  refine ⟨assign_SBP fuel self this objs, ?_, assign_frame fuel self this objs, ?_⟩
  · intro id a b ha hb
    have h := assign_SBP fuel self this objs id
    rw [ha, hb] at h
    simp only [optSBP, sameButParent] at h
    exact (fsEq_iff_eraseParent a b).mpr h
  · intro pid q hq hnot
    rw [assign_frame fuel self this objs pid hnot]
    exact hq

theorem assign_frame_effect_witness :
    demoObjs.get "p" = some (PBXObject.fs demoRoot)
    ∧ ("p" ∉ subtreeIds 2 demoRoot demoObjs)
    ∧ (PBXFSReference.assign_parent_to_children 2 demoRoot (some "p") demoObjs).get "p"
        = some (PBXObject.fs demoRoot) :=
  ⟨by decide, by decide,
    (assign_frame_effect 2 demoRoot (some "p") demoObjs).2.2.2 "p" demoRoot
      (by decide) (by decide)⟩

/-- C5: structural equality compares exactly the content attributes (it
holds iff the parent-erased records coincide), ignores the parent
back-reference on either side, is reflexive, symmetric and transitive, and
is invariant under relocation: copying a node's attributes (except parent)
into any node yields an equal node, and setting a node's parent never
changes its equality class. -/
theorem structural_eq_spec :
    (∀ a b : PBXFSReference, fsEq a b = true ↔ eraseParent a = eraseParent b)
    ∧ (∀ (a b : PBXFSReference) (p q : Option String),
        fsEq { a with parent := p } { b with parent := q } = fsEq a b)
    ∧ (∀ a : PBXFSReference, fsEq a a = true)
    ∧ (∀ a b : PBXFSReference, fsEq a b = fsEq b a)
    ∧ (∀ a b c : PBXFSReference, fsEq a b = true → fsEq b c = true → fsEq a c = true)
    ∧ (∀ a b : PBXFSReference, fsEq (copyAttrs a b) a = true)
    ∧ (∀ (a b : PBXFSReference) (t : Option String),
        fsEq (a.set_parent t) b = fsEq a b) := by
  refine ⟨fsEq_iff_eraseParent, ?_, ?_, ?_, ?_, ?_, ?_⟩
  · intro a b p q
    rfl
  · intro a
    exact (fsEq_iff_eraseParent a a).mpr rfl
  · intro a b
    rw [Bool.eq_iff_iff, fsEq_iff_eraseParent, fsEq_iff_eraseParent]
    exact eq_comm
  · intro a b c hab hbc
    exact (fsEq_iff_eraseParent a c).mpr
      (((fsEq_iff_eraseParent a b).mp hab).trans ((fsEq_iff_eraseParent b c).mp hbc))
  · intro a b
    exact (fsEq_iff_eraseParent _ a).mpr rfl
  · intro a b t
    rfl

theorem structural_eq_spec_witness :
    fsEq demoSource { demoSource with parent := some "p" } = true
    ∧ fsEq { demoSource with parent := some "p" } { demoSource with parent := some "q" } = true
    ∧ fsEq demoSource { demoSource with parent := some "q" } = true :=
  ⟨by decide, by decide,
    structural_eq_spec.2.2.2.2.1 demoSource { demoSource with parent := some "p" }
      { demoSource with parent := some "q" } (by decide) (by decide)⟩
